import Mathlib

/-!
Verification of the core data pipeline of the password-csv-compare
application (src/app.js): the CSV tokenizer, the column mapper, the record
normalizer, the comparator and the CSV serializer.

Strings are modelled as lists of characters (`List Char`).  The only
platform facility the code relies on that is not plain string processing is
the WHATWG URL parser used inside extractDomain (`new URL(u).hostname`,
with parse failures caught); it is modelled as an explicit parameter
`hostFn : List Char → Option (List Char)` threaded through the functions
that need it, so every definition below stays executable.
-/

set_option maxHeartbeats 1000000

/-- Lowercase mapping of a character, as JavaScript toLowerCase acts on the
ASCII range (the only range that survives the [a-z0-9] filters and the
literal comparisons performed by the code). -/
def jsToLowerChar (c : Char) : Char :=
  if 65 ≤ c.toNat ∧ c.toNat ≤ 90 then Char.ofNat (c.toNat + 32) else c

/-- Lowercasing of a whole string (String.prototype.toLowerCase). -/
def lowerAll (s : List Char) : List Char := s.map jsToLowerChar

/-- Character class removed by String.prototype.trim in JavaScript:
WhiteSpace and LineTerminator code points. -/
def isJsWs (c : Char) : Bool :=
  [9, 10, 11, 12, 13, 32, 0xA0, 0x1680, 0x2000, 0x2001, 0x2002, 0x2003,
    0x2004, 0x2005, 0x2006, 0x2007, 0x2008, 0x2009, 0x200A, 0x2028, 0x2029,
    0x202F, 0x205F, 0x3000, 0xFEFF].contains c.toNat

/-- Model of String.prototype.trim: drop leading and trailing whitespace. -/
def jsTrim (s : List Char) : List Char :=
  (((s.dropWhile isJsWs).reverse).dropWhile isJsWs).reverse

/-- Decides whether the first list is an initial segment of the second. -/
def leadsWith : List Char → List Char → Bool
  | [], _ => true
  | _ :: _, [] => false
  | a :: as, b :: bs => a == b && leadsWith as bs

/-- Decides whether `needle` occurs as a contiguous substring of the second
argument (String.prototype.includes). -/
def containsSub (needle : List Char) : List Char → Bool
  | [] => needle.isEmpty
  | c :: t => leadsWith needle (c :: t) || containsSub needle t

/-- Character kept by the header-normalisation filter, i.e. a lowercase
letter or a digit (the replace(/[^a-z0-9]/g, '') step). -/
def isLowerAlnum (c : Char) : Bool :=
  ('a' ≤ c && c ≤ 'z') || ('0' ≤ c && c ≤ '9')

/-- Header normalisation used by detectMapping:
header.toLowerCase().replace(/[^a-z0-9]/g, ''). -/
def normHeader (h : List Char) : List Char :=
  (h.map jsToLowerChar).filter isLowerAlnum

/-- Semantic fields the column mapper can assign (keys of FIELD_SYNONYMS). -/
inductive FieldName where
  | title
  | url
  | username
  | password
  | notes
  | otpAuth
deriving DecidableEq, Repr

/-- Synonym lists of FIELD_SYNONYMS in src/app.js, verbatim. -/
def fieldSynonyms : FieldName → List (List Char)
  | FieldName.title => ["title", "name", "nom", "item", "account"].map String.toList
  | FieldName.url =>
      ["url", "website", "site", "address", "webaddress", "adresse"].map String.toList
  | FieldName.username =>
      ["username", "login", "email", "e-mail", "user", "utilisateur"].map String.toList
  | FieldName.password => ["password", "motdepasse", "passcode"].map String.toList
  | FieldName.notes =>
      ["notes", "note", "remarks", "comment", "commentaires", "remarques"].map String.toList
  | FieldName.otpAuth => ["otp", "totp", "twofactor", "otpAuth"].map String.toList

/-- Iteration order of the for-in loop over FIELD_SYNONYMS (insertion order
of the object literal). -/
def fieldOrder : List FieldName :=
  [FieldName.title, FieldName.url, FieldName.username, FieldName.password, FieldName.notes, FieldName.otpAuth]

/-- Does the normalised header contain some (normalised) synonym of `f`?
Mirrors the inner for-of loop of detectMapping. -/
def matchProp (norm : List Char) (f : FieldName) : Bool :=
  (fieldSynonyms f).any (fun syn => containsSub (normHeader syn) norm)

/-- First field (in FIELD_SYNONYMS order) one of whose synonyms occurs in
the normalised header; the early return of detectMapping stops the scan at
this field whether or not it is still available. -/
def firstField (norm : List Char) : Option FieldName :=
  fieldOrder.find? (fun f => matchProp norm f)

/-- Loop of detectMapping: walk the headers left to right keeping the
used-props set and the index-to-field map built so far. -/
def detectMappingAux : List (List Char) → Nat → List FieldName → List (Nat × FieldName) →
    List (Nat × FieldName)
  | [], _, _, acc => acc
  | h :: rest, idx, used, acc =>
    match firstField (normHeader h) with
    | none => detectMappingAux rest (idx + 1) used acc
    | some f =>
      if f ∈ used then detectMappingAux rest (idx + 1) used acc
      else detectMappingAux rest (idx + 1) (f :: used) (acc ++ [(idx, f)])

/-- Model of detectMapping from src/app.js: mapping from column index to
semantic field, as an association list with strictly increasing indices. -/
def detectMapping (headers : List (List Char)) : List (Nat × FieldName) :=
  detectMappingAux headers 0 [] []

/-- Case-insensitive test for the regular expression /^https?:\/\//i. -/
def startsWithHttp (s : List Char) : Bool :=
  leadsWith (String.toList "http://") (lowerAll s) ||
    leadsWith (String.toList "https://") (lowerAll s)

/-- Removal of exactly one trailing slash: replace(/\/$/, ''). -/
def stripSlash (s : List Char) : List Char :=
  if s.getLast? = some '/' then s.dropLast else s

/-- Model of normaliseUrl from src/app.js: empty input stays empty;
otherwise trim, prepend https:// when no http(s):// scheme is present, and
strip one trailing slash. -/
def normaliseUrl (s : List Char) : List Char :=
  if s = [] then []
  else
    let t := jsTrim s
    let t2 := if t ≠ [] ∧ ¬ startsWithHttp t then String.toList "https://" ++ t else t
    stripSlash t2

/-- Credential record as built by parseFile, one per non-empty CSV row. -/
structure Record where
  title : List Char
  url : List Char
  username : List Char
  password : List Char
  notes : List Char
  otpAuth : List Char
  domain : List Char
deriving DecidableEq, Repr

/-- Record with every field defaulted to the empty string, as initialised
at the top of the row loop in parseFile. -/
def emptyRecord : Record := ⟨[], [], [], [], [], [], []⟩

/-- Assignment obj[prop] = value for the six mappable fields. -/
def setField (o : Record) (f : FieldName) (v : List Char) : Record :=
  match f with
  | FieldName.title => { o with title := v }
  | FieldName.url => { o with url := v }
  | FieldName.username => { o with username := v }
  | FieldName.password => { o with password := v }
  | FieldName.notes => { o with notes := v }
  | FieldName.otpAuth => { o with otpAuth := v }

/-- Registry suffixes treated as second-level TLDs by extractDomain. -/
def secondLevelTlds : List (List Char) :=
  ["co", "com", "gov", "ac", "edu", "net", "org"].map String.toList

/-- Model of extractDomain from src/app.js.  The platform URL parser is
the parameter `hostFn`, returning the hostname of a parseable URL and
`none` where the URL constructor would throw. -/
def extractDomain (hostFn : List Char → Option (List Char)) (urlString : List Char) :
    List Char :=
  match hostFn urlString with
  | none => []
  | some hostRaw =>
    let host := lowerAll hostRaw
    let parts := host.splitOnP (fun c => c = '.')
    if parts.length ≤ 2 then host
    else
      let secondLast := (parts.get? (parts.length - 2)).getD []
      if secondLevelTlds.contains secondLast then
        List.intercalate ['.'] (parts.drop (parts.length - 3))
      else
        List.intercalate ['.'] (parts.drop (parts.length - 2))

/-- Column-mapping loop of parseFile: for each column of the row in order,
write the cell into the record field the mapping assigns to that column. -/
def applyColsAux (m : List (Nat × FieldName)) : List (List Char) → Nat → Record → Record
  | [], _, o => o
  | cell :: rest, col, o =>
    applyColsAux m rest (col + 1)
      (match m.lookup col with
       | none => o
       | some f => setField o f cell)

/-- Construction of one record from one data row in parseFile: fill the
mapped fields, then normalise the URL, derive the domain, and lowercase the
username when it contains an at sign. -/
def buildRecord (hostFn : List Char → Option (List Char)) (m : List (Nat × FieldName))
    (row : List (List Char)) : Record :=
  let o := applyColsAux m row 0 emptyRecord
  let u := normaliseUrl o.url
  let d := extractDomain hostFn u
  let un :=
    if (!o.username.isEmpty) && o.username.contains '@' then lowerAll o.username
    else o.username
  { o with url := u, domain := d, username := un }

/-- Matching key of computeMissing: lowercased url (strict) or lowercased
domain (lenient), a literal bar, then the lowercased username. -/
def mkKey (strict : Bool) (e : Record) : List Char :=
  (if strict then lowerAll e.url else lowerAll e.domain) ++ '|' :: lowerAll e.username

/-- Key set built from listB in computeMissing (the JS Set, as a list). -/
def keysOf (listB : List Record) (strict : Bool) : List (List Char) :=
  listB.map (fun e => mkKey strict e)

/-- Model of computeMissing from src/app.js: keep the records of listA
whose key is absent from the key set of listB. -/
def computeMissing (listA listB : List Record) (strict : Bool) : List Record :=
  listA.filter (fun e => !((keysOf listB strict).contains (mkKey strict e)))

/-- Per-position decisions computeMissing takes over listA (true means the
record is reported missing). -/
def missingMask (listA listB : List Record) (strict : Bool) : List Bool :=
  listA.map (fun e => !((keysOf listB strict).contains (mkKey strict e)))

/-- Agreement of two records on every field except the password. -/
def agreePub (a b : Record) : Prop :=
  a.title = b.title ∧ a.url = b.url ∧ a.username = b.username ∧
    a.notes = b.notes ∧ a.otpAuth = b.otpAuth ∧ a.domain = b.domain

/-- State machine of parseCSV from src/app.js.  Arguments: remaining input,
the inQuotes flag, the current field buffer, the current row buffer and the
rows emitted so far. -/
def parseCSVAux : List Char → Bool → List Char → List (List Char) →
    List (List (List Char)) → List (List (List Char))
  | [], _, field, row, rows =>
    if field = [] ∧ row = [] then rows else rows ++ [row ++ [field]]
  | '"' :: rest, inQ, field, row, rows =>
    if inQ then
      match rest with
      | '"' :: rest2 => parseCSVAux rest2 inQ (field ++ ['"']) row rows
      | other => parseCSVAux other false field row rows
    else parseCSVAux rest true field row rows
  | ',' :: rest, inQ, field, row, rows =>
    if inQ then parseCSVAux rest inQ (field ++ [',']) row rows
    else parseCSVAux rest inQ [] (row ++ [field]) rows
  | '\r' :: rest, inQ, field, row, rows =>
    if inQ then parseCSVAux rest inQ (field ++ ['\r']) row rows
    else
      match rest with
      | '\n' :: rest2 => parseCSVAux rest2 inQ [] [] (rows ++ [row ++ [field]])
      | other => parseCSVAux other inQ [] [] (rows ++ [row ++ [field]])
  | '\n' :: rest, inQ, field, row, rows =>
    if inQ then parseCSVAux rest inQ (field ++ ['\n']) row rows
    else parseCSVAux rest inQ [] [] (rows ++ [row ++ [field]])
  | c :: rest, inQ, field, row, rows => parseCSVAux rest inQ (field ++ [c]) row rows

/-- Model of parseCSV from src/app.js: raw text to rows of fields. -/
def parseCSV (text : List Char) : List (List (List Char)) :=
  parseCSVAux text false [] [] []

/-- Row loop of parseFile: skip rows whose every cell is the empty string,
and turn each remaining row into a record via the column mapping. -/
def rowsToRecords (hostFn : List Char → Option (List Char)) (m : List (Nat × FieldName))
    (rows : List (List (List Char))) : List Record :=
  (rows.filter (fun row => !(row.all (fun cell => cell.isEmpty)))).map
    (fun row => buildRecord hostFn m row)

/-- Model of the rows-to-records part of parseFile: the first row gives the
headers (each trimmed), the mapper runs once on them, and every later row
becomes a record unless all its cells are empty. -/
def parseRows (hostFn : List Char → Option (List Char))
    (rows : List (List (List Char))) : List Record :=
  match rows with
  | [] => []
  | hdr :: rest => rowsToRecords hostFn (detectMapping (hdr.map jsTrim)) rest

/-- Full file-to-records pipeline of parseFile: tokenizer, then mapper on
the header row, then the normaliser on each data row. -/
def parseSource (hostFn : List Char → Option (List Char)) (text : List Char) :
    List Record :=
  parseRows hostFn (parseCSV text)

/-- Character that forces a field to be quoted on output: the regular
expression [,"\n] tested by the escape helper of generateCsv. -/
def isSpecialChar (c : Char) : Bool :=
  c = ',' || c = '"' || c = '\n'

/-- Doubling of the inner double quotes: replace(/"/g, two quotes). -/
def doubleQuotes : List Char → List Char
  | [] => []
  | c :: t => if c = '"' then '"' :: '"' :: doubleQuotes t else c :: doubleQuotes t

/-- Escape helper of generateCsv: wrap in double quotes (doubling the inner
ones) exactly when the field holds a comma, a double quote or a newline. -/
def escapeField (s : List Char) : List Char :=
  if s.any isSpecialChar then '"' :: doubleQuotes s ++ ['"'] else s

/-- Joining of row cells with commas (row.join with a comma). -/
def joinComma : List (List Char) → List Char
  | [] => []
  | [f] => f
  | f :: fs => f ++ ',' :: joinComma fs

/-- Joining of output lines with CRLF (lines.join with a CRLF). -/
def joinLines : List (List Char) → List Char
  | [] => []
  | [l] => l
  | l :: ls => l ++ '\r' :: '\n' :: joinLines ls

/-- Fixed header line pushed first by generateCsv. -/
def headerChars : List Char := String.toList "title,url,username,password,notes,otpAuth"

/-- Output row of generateCsv for one record: the five escaped fields and a
final empty otpAuth cell. -/
def csvRowCells (e : Record) : List (List Char) :=
  [escapeField e.title, escapeField e.url, escapeField e.username,
    escapeField e.password, escapeField e.notes, []]

/-- Model of generateCsv from src/app.js: the fixed header line followed by
one line per record, joined with CRLF. -/
def generateCsv (entries : List Record) : List Char :=
  joinLines (headerChars :: entries.map (fun e => joinComma (csvRowCells e)))

/-- Characters that are inert for the tokenizer outside quotes: anything
except the double quote, the comma and the two line terminators. -/
def cleanChar (c : Char) : Prop :=
  c ≠ '"' ∧ c ≠ ',' ∧ c ≠ '\n' ∧ c ≠ '\r'

instance (c : Char) : Decidable (cleanChar c) := by
  unfold cleanChar; infer_instance

/-- Field free of the comma, double quote and both line terminators. -/
def cleanStr (s : List Char) : Prop := ∀ c ∈ s, cleanChar c

instance (s : List Char) : Decidable (cleanStr s) := by
  unfold cleanStr; infer_instance

/-- Record whose five exported fields are clean in the sense of cleanStr. -/
def cleanRec (r : Record) : Prop :=
  cleanStr r.title ∧ cleanStr r.url ∧ cleanStr r.username ∧
    cleanStr r.password ∧ cleanStr r.notes

instance (r : Record) : Decidable (cleanRec r) := by
  unfold cleanRec; infer_instance

/-- Five fields the round-trip property talks about. -/
def projFive (r : Record) : List Char × List Char × List Char × List Char × List Char :=
  (r.title, r.url, r.username, r.password, r.notes)

/-- First key component of computeMissing: the url in strict mode, the
derived domain otherwise. -/
def keyComponent (strict : Bool) (e : Record) : List Char :=
  if strict then e.url else e.domain

/-- Absence of a trailing slash and of trailing whitespace. -/
def goodEnd (s : List Char) : Bool :=
  match s.getLast? with
  | none => true
  | some c => !(c = '/' || isJsWs c)

/-- Membership in a contains test, at lawful BEq instances. -/
theorem contains_iff_mem {α : Type} [BEq α] [LawfulBEq α] (l : List α) (a : α) :
    l.contains a = true ↔ a ∈ l := by
  simp [List.contains, List.elem_iff]

/-- C10: comparing a list with itself reports nothing missing, in both
comparison modes. -/
theorem c10_self_compare (l : List Record) (strict : Bool) :
    computeMissing l l strict = [] := by
  apply List.filter_eq_nil_iff.mpr
  intro e he
  have hm : mkKey strict e ∈ keysOf l strict := List.mem_map_of_mem _ he
  simp [contains_iff_mem, hm]

/-- C3: computeMissing keeps exactly the records of listA whose key occurs
under no record of listB, by filtering listA in place; in particular the
result is a sublist of listA (original order, duplicates each kept). -/
theorem c3_computeMissing_spec (listA listB : List Record) (strict : Bool) :
    computeMissing listA listB strict =
      listA.filter (fun e => decide (∀ b ∈ listB, mkKey strict e ≠ mkKey strict b)) ∧
      (computeMissing listA listB strict).Sublist listA := by
  refine ⟨?_, List.filter_sublist _⟩
  apply List.filter_congr
  intro e _
  rw [Bool.eq_iff_iff]
  simp only [Bool.not_eq_true', Bool.not_eq_true, decide_eq_true_iff]
  constructor
  · intro hc b hb hk
    have hmem : mkKey strict e ∈ keysOf listB strict :=
      List.mem_map.mpr ⟨b, hb, hk.symm⟩
    have ht := (contains_iff_mem _ _).mpr hmem
    rw [hc] at ht
    exact Bool.false_ne_true ht
  · intro hall
    rw [← Bool.not_eq_true]
    intro hc
    rcases List.mem_map.mp ((contains_iff_mem _ _).mp hc) with ⟨b, hb, hk⟩
    exact hall b hb hk.symm

/-- Evaluation of Char.ofNat below the surrogate range. -/
theorem charToNat_ofNat (n : Nat) (h : n < 0xD800) : (Char.ofNat n).toNat = n := by
  have hv : n.isValidChar := Or.inl h
  simp [Char.ofNat, Char.toNat, hv, Char.ofNatAux, UInt32.toNat, UInt32.ofNatCore,
    BitVec.toNat_ofNatLt]

/-- Lowercasing never produces the bar character from anything else. -/
theorem jsToLowerChar_eq_bar (c : Char) : jsToLowerChar c = '|' ↔ c = '|' := by
  constructor
  · intro he
    unfold jsToLowerChar at he
    split at he
    · exfalso
      rename_i hr
      have h1 : (Char.ofNat (c.toNat + 32)).toNat = c.toNat + 32 :=
        charToNat_ofNat _ (by omega)
      rw [he] at h1
      have : ('|').toNat = 124 := by decide
      omega
    · exact he
  · intro he
    subst he
    decide

/-- Bar-freeness carries over to the lowercased string. -/
theorem bar_not_mem_lowerAll (s : List Char) (h : '|' ∉ s) : '|' ∉ lowerAll s := by
  intro hm
  rcases List.mem_map.mp hm with ⟨c, hc, hlow⟩
  exact h ((jsToLowerChar_eq_bar c).mp hlow ▸ hc)

/-- Cancellation of the separator: two bar-free components followed by a
bar determine the decomposition of the concatenation. -/
theorem append_bar_inj (a b c d : List Char) (ha : '|' ∉ a) (hc : '|' ∉ c)
    (h : a ++ '|' :: b = c ++ '|' :: d) : a = c ∧ b = d := by
  induction a generalizing c with
  | nil =>
    cases c with
    | nil => simpa using h
    | cons x xs =>
      exfalso
      have hx : x = '|' := by
        have := congrArg (fun l => l.head?) h
        simpa using this.symm
      exact hc (hx ▸ List.mem_cons_self x xs)
  | cons y ys ih =>
    cases c with
    | nil =>
      exfalso
      have hy : y = '|' := by
        have := congrArg (fun l => l.head?) h
        simpa using this
      exact ha (hy ▸ List.mem_cons_self y ys)
    | cons x xs =>
      have hhead : y = x := by
        have := congrArg (fun l => l.head?) h
        simpa using this
      have htail : ys ++ '|' :: b = xs ++ '|' :: d := by
        have := congrArg (fun l => l.tail) h
        simpa using this
      have ha2 : '|' ∉ ys := fun hm => ha (List.mem_cons_of_mem _ hm)
      have hc2 : '|' ∉ xs := fun hm => hc (List.mem_cons_of_mem _ hm)
      rcases ih xs ha2 hc2 htail with ⟨h1, h2⟩
      exact ⟨by rw [hhead, h1], h2⟩

/-- C5 (amended): whenever neither key component of either record contains
the bar separator, equal computeMissing keys force the lowercased
components to agree pairwise, in either comparison mode. -/
theorem c5_key_injective (strict : Bool) (e1 e2 : Record)
    (h1 : '|' ∉ keyComponent strict e1) (h2 : '|' ∉ keyComponent strict e2)
    (hk : mkKey strict e1 = mkKey strict e2) :
    lowerAll (keyComponent strict e1) = lowerAll (keyComponent strict e2) ∧
      lowerAll e1.username = lowerAll e2.username := by
  have hmk1 : mkKey strict e1 =
      lowerAll (keyComponent strict e1) ++ '|' :: lowerAll e1.username := by
    cases strict <;> simp [mkKey, keyComponent]
  have hmk2 : mkKey strict e2 =
      lowerAll (keyComponent strict e2) ++ '|' :: lowerAll e2.username := by
    cases strict <;> simp [mkKey, keyComponent]
  rw [hmk1, hmk2] at hk
  exact append_bar_inj _ _ _ _ (bar_not_mem_lowerAll _ h1) (bar_not_mem_lowerAll _ h2) hk

/-- C5 (witness): the amended key-injectivity statement applied to two
concrete bar-free records with equal strict keys. -/
theorem c5_key_injective_witness :
    lowerAll (keyComponent true (Record.mk [] (String.toList "A") (String.toList "U") [] [] [] [])) =
      lowerAll (keyComponent true (Record.mk [] (String.toList "a") (String.toList "u") [] [] [] [])) ∧
    lowerAll (String.toList "U") = lowerAll (String.toList "u") :=
  c5_key_injective true
    (Record.mk [] (String.toList "A") (String.toList "U") [] [] [] [])
    (Record.mk [] (String.toList "a") (String.toList "u") [] [] [] [])
    (by decide) (by decide) (by decide)

/-- C5 (counterexample): key construction is not injective as claimed: two
records whose url and username both differ (even after lowercasing) share
one strict-mode key, because a bar inside a field mimics the separator. -/
theorem c5_counterexample :
    mkKey true (Record.mk [] (String.toList "a") (String.toList "b|c") [] [] [] []) =
      mkKey true (Record.mk [] (String.toList "a|b") (String.toList "c") [] [] [] []) ∧
    lowerAll (String.toList "a") ≠ lowerAll (String.toList "a|b") ∧
    lowerAll (String.toList "b|c") ≠ lowerAll (String.toList "c") := by decide

/-- C6 (counterexample): on the header list Nom, Site, Identifiant,
Mot de passe, extra, the mapper leaves column 2 (Identifiant) unassigned —
no synonym of any field occurs in it — contradicting the claim that it is
assigned to username. -/
theorem c6_counterexample :
    (detectMapping (["Nom", "Site", "Identifiant", "Mot de passe", "extra"].map
      String.toList)).lookup 2 = none := by decide

/-- C6 (amended): on that header list detectMapping assigns column 0 to
title, column 1 to url and column 3 to password, and leaves columns 2
(Identifiant) and 4 (extra) unmapped. -/
theorem c6_mapping :
    detectMapping (["Nom", "Site", "Identifiant", "Mot de passe", "extra"].map
      String.toList) =
      [(0, FieldName.title), (1, FieldName.url), (3, FieldName.password)] := by decide

/-- C7: the tokenizer parses the nine-character quoted sample followed by a
newline into exactly one row holding the three expected fields, the doubled
quote collapsing to one literal quote. -/
theorem c7_tokenizer :
    parseCSV (String.toList "a,\"b,c\",\"d\"\"e\"\n") =
      [[String.toList "a", String.toList "b,c", String.toList "d\"e"]] := by decide

/-- Unfolding of the CRLF line join into header plus flattened CRLF-headed
line blocks. -/
theorem joinLines_cons (x : List Char) (ls : List (List Char)) :
    joinLines (x :: ls) = x ++ (ls.map (fun l => '\r' :: '\n' :: l)).flatten := by
  induction ls generalizing x with
  | nil => simp [joinLines]
  | cons y t ih => simp [joinLines, ih y]

/-- Doubling the quotes never shortens a string. -/
theorem doubleQuotes_length (s : List Char) : s.length ≤ (doubleQuotes s).length := by
  induction s with
  | nil => simp [doubleQuotes]
  | cons c t ih =>
    by_cases h : c = '"' <;> simp [doubleQuotes, h] <;> omega

/-- Last element of an append with a nonempty right part. -/
theorem getLast?_append_right (x y : List Char) (h : y ≠ []) :
    (x ++ y).getLast? = y.getLast? := by
  rw [List.getLast?_append]
  cases hy : y.getLast? with
  | none => exact absurd (List.getLast?_eq_none_iff.mp hy) h
  | some d => simp

/-- Comma join of fields ending in an empty cell always ends with the
separating comma. -/
theorem joinComma_getLast_emptyEnd :
    ∀ (fs : List (List Char)) (f : List Char),
      (joinComma ((f :: fs) ++ [[]])).getLast? = some ',' := by
  intro fs
  induction fs with
  | nil =>
    intro f
    have : joinComma ([f] ++ [[]]) = f ++ [','] := rfl
    rw [this, getLast?_append_right _ _ (by simp)]
    rfl
  | cons g t ih =>
    intro f
    have hstep : joinComma ((f :: g :: t) ++ [[]]) =
        f ++ ',' :: joinComma ((g :: t) ++ [[]]) := rfl
    rw [hstep, getLast?_append_right _ _ (by simp)]
    have hne : joinComma ((g :: t) ++ [[]]) ≠ [] := by
      intro hnil
      have := ih g
      rw [hnil] at this
      simp at this
    have hc : (',' :: joinComma ((g :: t) ++ [[]])) =
        [','] ++ joinComma ((g :: t) ++ [[]]) := rfl
    rw [hc, getLast?_append_right _ _ hne]
    exact ih g

/-- Closing catch: every serialized data line ends with the comma in front
of the always-empty otpAuth cell. -/
theorem csvRow_getLast (e : Record) :
    (joinComma (csvRowCells e)).getLast? = some ',' := by
  have : csvRowCells e =
      (escapeField e.title :: [escapeField e.url, escapeField e.username,
        escapeField e.password, escapeField e.notes]) ++ [[]] := rfl
  rw [this]
  exact joinComma_getLast_emptyEnd _ _

/-- Last character of the joined output, when every line after the first
ends with a comma. -/
theorem joinLines_getLast (ls : List (List Char)) (x : List Char)
    (h : ∀ l ∈ ls, l.getLast? = some ',') (hne : ls ≠ []) :
    (joinLines (x :: ls)).getLast? = some ',' := by
  induction ls generalizing x with
  | nil => exact absurd rfl hne
  | cons y t ih =>
    cases t with
    | nil =>
      have hy := h y (List.mem_cons_self y [])
      have hyne : y ≠ [] := by
        intro hnil
        rw [hnil] at hy
        simp at hy
      have hj : joinLines [x, y] = x ++ (['\r', '\n'] ++ y) := by
        simp [joinLines]
      rw [hj, getLast?_append_right _ _ (by simp),
        getLast?_append_right _ _ hyne]
      exact hy
    | cons z t2 =>
      have hrec : (joinLines (y :: z :: t2)).getLast? = some ',' := by
        apply ih y
        · intro l hl
          exact h l (List.mem_cons_of_mem _ hl)
        · simp
      have hrne : joinLines (y :: z :: t2) ≠ [] := by
        intro hnil
        rw [hnil] at hrec
        simp at hrec
      have hj : joinLines (x :: y :: z :: t2) =
          x ++ (['\r', '\n'] ++ joinLines (y :: z :: t2)) := by
        simp [joinLines]
      rw [hj, getLast?_append_right _ _ (by simp),
        getLast?_append_right _ _ hrne]
      exact hrec

/-- C8: the escape helper quotes-and-doubles a field exactly when it holds
a comma, a double quote or a newline (and leaves it untouched otherwise),
and generateCsv is the fixed header line followed by one CRLF-led line per
record, with no line terminator after the last line. -/
theorem c8_serializer (entries : List Record) (s : List Char) :
    (escapeField s = s ↔ ∀ c ∈ s, ¬(c = ',' ∨ c = '"' ∨ c = '\n')) ∧
    (s.any isSpecialChar = true → escapeField s = '"' :: doubleQuotes s ++ ['"']) ∧
    generateCsv entries =
      headerChars ++ (entries.map (fun e => '\r' :: '\n' :: joinComma (csvRowCells e))).flatten ∧
    (generateCsv entries).getLast? ≠ some '\n' := by
  refine ⟨?_, ?_, ?_, ?_⟩
  · by_cases h : s.any isSpecialChar
    · constructor
      · intro he
        exfalso
        have hlen := congrArg List.length he
        have hd := doubleQuotes_length s
        simp [escapeField, h] at hlen
        omega
      · intro hall
        exfalso
        rcases List.any_eq_true.mp h with ⟨c, hc, hsp⟩
        have := hall c hc
        simp [isSpecialChar] at hsp
        tauto
    · have hall : ∀ c ∈ s, ¬(c = ',' ∨ c = '"' ∨ c = '\n') := by
        intro c hc hsp
        apply h
        apply List.any_eq_true.mpr
        refine ⟨c, hc, ?_⟩
        simp only [isSpecialChar]
        rcases hsp with h1 | h1 | h1 <;> simp [h1]
      rw [escapeField, if_neg h]
      exact iff_of_true rfl hall
  · intro h
    rw [escapeField, if_pos h]
  · simp only [generateCsv, joinLines_cons, List.map_map]
    rfl
  · cases entries with
    | nil =>
      have hg : generateCsv [] = headerChars := rfl
      rw [hg]
      decide
    | cons e es =>
      have hg : generateCsv (e :: es) =
          joinLines (headerChars :: (e :: es).map (fun r => joinComma (csvRowCells r))) := rfl
      rw [hg]
      have hlast : (joinLines (headerChars ::
          (e :: es).map (fun r => joinComma (csvRowCells r)))).getLast? = some ',' := by
        apply joinLines_getLast
        · intro l hl
          rcases List.mem_map.mp hl with ⟨r, _, hr⟩
          rw [← hr]
          exact csvRow_getLast r
        · simp
      rw [hlast]
      simp

/-- C8 (witness): the serializer facts applied at concrete fields and an
empty entry list: a field with a comma gets quoted, one without special
characters is untouched, and the output does not end in a newline. -/
theorem c8_serializer_witness :
    escapeField (String.toList "a,b") = String.toList "\"a,b\"" ∧
    escapeField (String.toList "ab") = String.toList "ab" ∧
    (generateCsv []).getLast? ≠ some '\n' :=
  ⟨((c8_serializer [] (String.toList "a,b")).2.1 (by decide)).trans (by decide),
    (c8_serializer [] (String.toList "ab")).1.mpr (by decide),
    (c8_serializer [] []).2.2.2⟩

/-- Slash is never produced by lowercasing another character. -/
theorem jsToLowerChar_eq_slash (c : Char) : jsToLowerChar c = '/' ↔ c = '/' := by
  constructor
  · intro he
    unfold jsToLowerChar at he
    split at he
    · exfalso
      rename_i hr
      have h1 : (Char.ofNat (c.toNat + 32)).toNat = c.toNat + 32 :=
        charToNat_ofNat _ (by omega)
      rw [he] at h1
      have : ('/').toNat = 47 := by decide
      omega
    · exact he
  · intro he
    subst he
    decide

/-- Head of a dropWhile fails the predicate. -/
theorem dropWhile_head_false (p : Char → Bool) (l : List Char) (c : Char)
    (h : (l.dropWhile p).head? = some c) : p c = false := by
  induction l with
  | nil => simp at h
  | cons x t ih =>
    by_cases hp : p x
    · rw [List.dropWhile_cons, if_pos hp] at h
      exact ih h
    · rw [List.dropWhile_cons, if_neg hp] at h
      simp only [List.head?_cons, Option.some.injEq] at h
      subst h
      simpa using hp

/-- Any list decomposes as a consumed part plus its dropWhile. -/
theorem dropWhile_decomp (p : Char → Bool) (l : List Char) :
    ∃ u, l = u ++ l.dropWhile p := by
  induction l with
  | nil => exact ⟨[], rfl⟩
  | cons x t ih =>
    by_cases hp : p x
    · rcases ih with ⟨u, hu⟩
      refine ⟨x :: u, ?_⟩
      rw [List.dropWhile_cons, if_pos hp, List.cons_append, ← hu]
    · exact ⟨[], by rw [List.dropWhile_cons, if_neg hp]; rfl⟩

/-- Head of the trimmed string is not whitespace. -/
theorem jsTrim_head_not_ws (s : List Char) (c : Char)
    (h : (jsTrim s).head? = some c) : isJsWs c = false := by
  unfold jsTrim at h
  rcases dropWhile_decomp isJsWs (s.dropWhile isJsWs).reverse with ⟨u, hu⟩
  have ha2 : s.dropWhile isJsWs =
      ((s.dropWhile isJsWs).reverse.dropWhile isJsWs).reverse ++ u.reverse := by
    have := congrArg List.reverse hu
    simpa using this
  cases hbr : ((s.dropWhile isJsWs).reverse.dropWhile isJsWs).reverse with
  | nil => rw [hbr] at h; simp at h
  | cons d e =>
    rw [hbr] at h
    simp only [List.head?_cons, Option.some.injEq] at h
    rw [hbr] at ha2
    have hah : (s.dropWhile isJsWs).head? = some d := by
      rw [ha2]; rfl
    exact dropWhile_head_false isJsWs s c (h ▸ hah)

/-- Last character of the trimmed string is not whitespace. -/
theorem jsTrim_getLast_not_ws (s : List Char) (c : Char)
    (h : (jsTrim s).getLast? = some c) : isJsWs c = false := by
  unfold jsTrim at h
  rw [List.getLast?_reverse] at h
  exact dropWhile_head_false isJsWs _ c h

/-- Trim is the identity when both ends are already clean. -/
theorem jsTrim_fix (s : List Char)
    (hh : ∀ c, s.head? = some c → isJsWs c = false)
    (hl : ∀ c, s.getLast? = some c → isJsWs c = false) : jsTrim s = s := by
  cases s with
  | nil => rfl
  | cons x t =>
    have hx : isJsWs x = false := hh x rfl
    have h1 : (x :: t).dropWhile isJsWs = x :: t := by
      rw [List.dropWhile_cons, if_neg (by simp [hx])]
    unfold jsTrim
    rw [h1]
    cases hr : (x :: t).reverse with
    | nil => simp at hr
    | cons y u =>
      have hy : (x :: t).getLast? = some y := by
        rw [← List.head?_reverse, hr]; rfl
      have hyw : isJsWs y = false := hl y hy
      have h2 : List.dropWhile isJsWs (y :: u) = y :: u := by
        rw [List.dropWhile_cons, if_neg (by simp [hyw])]
      rw [h2]
      have h3 := congrArg List.reverse hr
      simpa using h3.symm

/-- stripSlash is the identity without a trailing slash. -/
theorem stripSlash_of_ne (s : List Char) (h : s.getLast? ≠ some '/') :
    stripSlash s = s := by
  unfold stripSlash
  rw [if_neg h]

/-- stripSlash keeps the head character when its result is nonempty. -/
theorem stripSlash_head (s : List Char) (h : stripSlash s ≠ []) :
    (stripSlash s).head? = s.head? := by
  by_cases hc : s.getLast? = some '/'
  · unfold stripSlash at h ⊢
    rw [if_pos hc] at h ⊢
    cases s with
    | nil => simp at h
    | cons x t =>
      cases t with
      | nil => simp at h
      | cons y u => rfl
  · rw [stripSlash_of_ne s hc]

/-- leadsWith tests an initial segment. -/
theorem leadsWith_eq_take (p l : List Char) :
    leadsWith p l = true ↔ l.take p.length = p := by
  induction p generalizing l with
  | nil => simp [leadsWith]
  | cons a as ih =>
    cases l with
    | nil => simp [leadsWith]
    | cons b bs =>
      simp only [leadsWith, List.length_cons, List.take_succ_cons, Bool.and_eq_true,
        beq_iff_eq, List.cons.injEq, ih]
      constructor
      · rintro ⟨h1, h2⟩; exact ⟨h1.symm, h2⟩
      · rintro ⟨h1, h2⟩; exact ⟨h1.symm, h2⟩

/-- startsWithHttp through take of the lowercased string. -/
theorem startsWithHttp_iff (s : List Char) :
    startsWithHttp s = true ↔
      (lowerAll s).take 7 = String.toList "http://" ∨
        (lowerAll s).take 8 = String.toList "https://" := by
  unfold startsWithHttp
  rw [Bool.or_eq_true, leadsWith_eq_take, leadsWith_eq_take,
    show (String.toList "http://").length = 7 from by decide,
    show (String.toList "https://").length = 8 from by decide]

/-- Stripping one trailing slash keeps the http(s) scheme test true, as
long as the stripped string neither becomes empty nor still ends with a
slash (the residual cases where the scheme itself got truncated). -/
theorem startsWithHttp_stripSlash (t : List Char) (hsw : startsWithHttp t = true)
    (hlast : (stripSlash t).getLast? ≠ some '/') :
    startsWithHttp (stripSlash t) = true := by
  by_cases hc : t.getLast? = some '/'
  · unfold stripSlash at hlast ⊢
    rw [if_pos hc] at hlast ⊢
    rcases (startsWithHttp_iff t).mp hsw with h7 | h8
    · have hge : 7 ≤ (lowerAll t).length := by
        have := congrArg List.length h7
        simp [List.length_take] at this
        omega
      by_cases hlen : (lowerAll t).length ≤ 7
      · have hl7 : (lowerAll t).length = 7 := le_antisymm hlen hge
        have hteq : lowerAll t = String.toList "http://" := by
          conv_lhs => rw [← List.take_length (lowerAll t)]
          rw [hl7]
          exact h7
        have hld : lowerAll t.dropLast = String.toList "http:/" := by
          rw [lowerAll, List.map_dropLast]
          rw [show List.map jsToLowerChar t = lowerAll t from rfl, hteq]
          decide
        have hsl : (lowerAll t.dropLast).getLast? = some '/' := by
          rw [hld]; decide
        rw [lowerAll, List.getLast?_map] at hsl
        cases hgl : t.dropLast.getLast? with
        | none => rw [hgl] at hsl; simp at hsl
        | some d =>
          rw [hgl] at hsl
          simp only [Option.map_some'] at hsl
          have hd : d = '/' :=
            (jsToLowerChar_eq_slash d).mp (Option.some.inj hsl)
          exact absurd (hgl.trans (by rw [hd])) hlast
      · push_neg at hlen
        apply (startsWithHttp_iff _).mpr
        left
        rw [lowerAll, List.map_dropLast, List.dropLast_eq_take, List.take_take]
        have hmin : min 7 ((List.map jsToLowerChar t).length - 1) = 7 := by
          have : (List.map jsToLowerChar t).length = (lowerAll t).length := rfl
          omega
        rw [hmin]
        exact h7
    · have hge : 8 ≤ (lowerAll t).length := by
        have := congrArg List.length h8
        simp [List.length_take] at this
        omega
      by_cases hlen : (lowerAll t).length ≤ 8
      · have hl8 : (lowerAll t).length = 8 := le_antisymm hlen hge
        have hteq : lowerAll t = String.toList "https://" := by
          conv_lhs => rw [← List.take_length (lowerAll t)]
          rw [hl8]
          exact h8
        have hld : lowerAll t.dropLast = String.toList "https:/" := by
          rw [lowerAll, List.map_dropLast]
          rw [show List.map jsToLowerChar t = lowerAll t from rfl, hteq]
          decide
        have hsl : (lowerAll t.dropLast).getLast? = some '/' := by
          rw [hld]; decide
        rw [lowerAll, List.getLast?_map] at hsl
        cases hgl : t.dropLast.getLast? with
        | none => rw [hgl] at hsl; simp at hsl
        | some d =>
          rw [hgl] at hsl
          simp only [Option.map_some'] at hsl
          have hd : d = '/' :=
            (jsToLowerChar_eq_slash d).mp (Option.some.inj hsl)
          exact absurd (hgl.trans (by rw [hd])) hlast
      · push_neg at hlen
        apply (startsWithHttp_iff _).mpr
        right
        rw [lowerAll, List.map_dropLast, List.dropLast_eq_take, List.take_take]
        have hmin : min 8 ((List.map jsToLowerChar t).length - 1) = 8 := by
          have : (List.map jsToLowerChar t).length = (lowerAll t).length := rfl
          omega
        rw [hmin]
        exact h8
  · rw [stripSlash_of_ne t hc]
    exact hsw

/-- C4 (amended): normaliseUrl is idempotent on every input whose
normalised form neither ends with a slash nor ends with whitespace. -/
theorem c4_normaliseUrl_idem (x : List Char)
    (h : goodEnd (normaliseUrl x) = true) :
    normaliseUrl (normaliseUrl x) = normaliseUrl x := by
  by_cases hx : x = []
  · subst hx; rfl
  by_cases hy : normaliseUrl x = []
  · rw [hy]; rfl
  obtain ⟨c, hc⟩ : ∃ c, (normaliseUrl x).getLast? = some c := by
    cases hgl : (normaliseUrl x).getLast? with
    | none => exact absurd (List.getLast?_eq_none_iff.mp hgl) hy
    | some d => exact ⟨d, rfl⟩
  have hcc : ¬ c = '/' ∧ isJsWs c = false := by
    have h2 := h
    unfold goodEnd at h2
    rw [hc] at h2
    simpa using h2
  obtain ⟨hc_slash, hc_ws⟩ := hcc
  have hdefx : normaliseUrl x =
      stripSlash (if jsTrim x ≠ [] ∧ ¬ startsWithHttp (jsTrim x) then
        String.toList "https://" ++ jsTrim x else jsTrim x) := by
    rw [normaliseUrl, if_neg hx]
  set t2 := (if jsTrim x ≠ [] ∧ ¬ startsWithHttp (jsTrim x) then
      String.toList "https://" ++ jsTrim x else jsTrim x) with ht2
  have ht2ne : t2 ≠ [] := by
    intro hnil
    apply hy
    rw [hdefx, hnil]
    rfl
  have hswt2 : startsWithHttp t2 = true := by
    rw [ht2]
    by_cases hcond : jsTrim x ≠ [] ∧ ¬ startsWithHttp (jsTrim x)
    · rw [if_pos hcond]
      apply (startsWithHttp_iff _).mpr
      right
      rw [lowerAll, List.map_append,
        show List.map jsToLowerChar (String.toList "https://") =
          String.toList "https://" from by decide,
        show (8 : Nat) = (String.toList "https://").length from by decide,
        List.take_left]
    · have heq : t2 = jsTrim x := by rw [ht2, if_neg hcond]
      have htne : jsTrim x ≠ [] := heq ▸ ht2ne
      push_neg at hcond
      rw [if_neg]
      · exact hcond htne
      · push_neg
        exact hcond
  have hyy : normaliseUrl x = stripSlash t2 := hdefx
  have hyne : stripSlash t2 ≠ [] := by rw [← hyy]; exact hy
  have hlasty : (stripSlash t2).getLast? ≠ some '/' := by
    rw [← hyy, hc]
    simp [hc_slash]
  have hswy : startsWithHttp (stripSlash t2) = true :=
    startsWithHttp_stripSlash t2 hswt2 hlasty
  have hheady : ∀ d, (stripSlash t2).head? = some d → isJsWs d = false := by
    intro d hd
    rw [stripSlash_head t2 hyne] at hd
    rw [ht2] at hd
    by_cases hcond : jsTrim x ≠ [] ∧ ¬ startsWithHttp (jsTrim x)
    · rw [if_pos hcond] at hd
      have hh : (String.toList "https://" ++ jsTrim x).head? = some 'h' := rfl
      rw [hh] at hd
      rw [(Option.some.inj hd).symm]
      decide
    · rw [if_neg hcond] at hd
      exact jsTrim_head_not_ws x d hd
  have hlastyws : ∀ d, (stripSlash t2).getLast? = some d → isJsWs d = false := by
    intro d hd
    rw [← hyy] at hd
    have hdc : d = c := by
      rw [hc] at hd
      exact (Option.some.inj hd).symm
    rw [hdc]
    exact hc_ws
  have htrimy : jsTrim (stripSlash t2) = stripSlash t2 :=
    jsTrim_fix _ hheady hlastyws
  have hstripy : stripSlash (stripSlash t2) = stripSlash t2 :=
    stripSlash_of_ne _ hlasty
  have hcond2 : ¬(stripSlash t2 ≠ [] ∧ ¬ startsWithHttp (stripSlash t2)) := by
    intro hcc2
    exact hcc2.2 hswy
  have hdefy : normaliseUrl (stripSlash t2) =
      stripSlash (if jsTrim (stripSlash t2) ≠ [] ∧
          ¬ startsWithHttp (jsTrim (stripSlash t2)) then
        String.toList "https://" ++ jsTrim (stripSlash t2)
      else jsTrim (stripSlash t2)) := by
    rw [normaliseUrl, if_neg hyne]
  rw [hyy, hdefy, htrimy, if_neg hcond2, hstripy]

/-- C4 (counterexample): normaliseUrl is not idempotent as claimed: on the
input a// one application yields https://a/ and a second application
strips the leftover slash. -/
theorem c4_counterexample :
    normaliseUrl (normaliseUrl (String.toList "a//")) ≠
      normaliseUrl (String.toList "a//") := by decide

/-- C4 (witness): the amended idempotence applied to a concrete input with
a clean normalised form. -/
theorem c4_normaliseUrl_idem_witness :
    goodEnd (normaliseUrl (String.toList "example.com")) = true ∧
    normaliseUrl (normaliseUrl (String.toList "example.com")) =
      normaliseUrl (String.toList "example.com") :=
  ⟨by decide, c4_normaliseUrl_idem (String.toList "example.com") (by decide)⟩

/-- Successful lookups come from members of the association list. -/
theorem lookup_mem {β : Type} (l : List (Nat × β)) (k : Nat) (v : β)
    (h : l.lookup k = some v) : (k, v) ∈ l := by
  induction l with
  | nil => simp [List.lookup] at h
  | cons p t ih =>
    rcases p with ⟨a, b⟩
    rw [List.lookup] at h
    cases hba : (k == a) with
    | true =>
      simp only [hba] at h
      have hka : k = a := by simpa using hba
      have hbv : b = v := by simpa using h
      rw [hka, ← hbv]
      exact List.mem_cons_self _ _
    | false =>
      simp only [hba] at h
      exact List.mem_cons_of_mem _ (ih h)

/-- In a map whose assigned fields are distinct, one field determines the
column. -/
theorem snd_nodup_key_unique (m : List (Nat × FieldName))
    (hnd : (m.map Prod.snd).Nodup) (c1 c2 : Nat) (f : FieldName)
    (h1 : (c1, f) ∈ m) (h2 : (c2, f) ∈ m) : c1 = c2 := by
  induction m with
  | nil => simp at h1
  | cons p t ih =>
    rcases p with ⟨a, b⟩
    simp only [List.map_cons, List.nodup_cons] at hnd
    rcases List.mem_cons.mp h1 with he1 | ht1
    · rcases List.mem_cons.mp h2 with he2 | ht2
      · rw [Prod.mk.injEq] at he1 he2
        rw [he1.1, he2.1]
      · exfalso
        apply hnd.1
        rw [Prod.mk.injEq] at he1
        rw [← he1.2]
        exact List.mem_map.mpr ⟨(c2, f), ht2, rfl⟩
    · rcases List.mem_cons.mp h2 with he2 | ht2
      · exfalso
        apply hnd.1
        rw [Prod.mk.injEq] at he2
        rw [← he2.2]
        exact List.mem_map.mpr ⟨(c1, f), ht1, rfl⟩
      · exact ih hnd.2 ht1 ht2

/-- The loop of detectMapping assigns each field to at most one column:
the used-props set blocks any second assignment. -/
theorem detectMappingAux_sndNodup :
    ∀ (hs : List (List Char)) (idx : Nat) (used : List FieldName)
      (acc : List (Nat × FieldName)),
      (∀ f ∈ acc.map Prod.snd, f ∈ used) → (acc.map Prod.snd).Nodup →
      ((detectMappingAux hs idx used acc).map Prod.snd).Nodup := by
  intro hs
  induction hs with
  | nil => intro idx used acc _ h2; exact h2
  | cons hh ht ih =>
    intro idx used acc h1 h2
    cases hf : firstField (normHeader hh) with
    | none =>
      simp only [detectMappingAux, hf]
      exact ih _ _ _ h1 h2
    | some f =>
      simp only [detectMappingAux, hf]
      by_cases hu : f ∈ used
      · rw [if_pos hu]
        exact ih _ _ _ h1 h2
      · rw [if_neg hu]
        apply ih
        · intro g hg
          rw [List.map_append] at hg
          rcases List.mem_append.mp hg with hga | hgb
          · exact List.mem_cons_of_mem _ (h1 g hga)
          · have : g = f := by simpa using hgb
            rw [this]
            exact List.mem_cons_self _ _
        · rw [List.map_append]
          apply List.Nodup.append h2 (List.nodup_singleton f)
          intro g hga hgb
          have hgf : g = f := by simpa using hgb
          exact hu (hgf ▸ h1 g hga)

/-- Fields assigned by detectMapping are pairwise distinct. -/
theorem detectMapping_sndNodup (hs : List (List Char)) :
    ((detectMapping hs).map Prod.snd).Nodup :=
  detectMappingAux_sndNodup hs 0 [] [] (by simp) (by simp)

/-- Setting another field never touches the password. -/
theorem setField_password_of_ne (o : Record) (f : FieldName) (v : List Char)
    (h : f ≠ FieldName.password) : (setField o f v).password = o.password := by
  cases f
  case password => exact absurd rfl h
  all_goals rfl

/-- Rows whose columns never map to the password leave it unchanged. -/
theorem applyColsAux_password_none (m : List (Nat × FieldName)) :
    ∀ (cells : List (List Char)) (i : Nat) (o : Record),
      (∀ j, i ≤ j → j < i + cells.length → m.lookup j ≠ some FieldName.password) →
      (applyColsAux m cells i o).password = o.password := by
  intro cells
  induction cells with
  | nil => intro i o _; rfl
  | cons cell rest ih =>
    intro i o hno
    simp only [applyColsAux]
    have hrec := ih (i + 1) (match m.lookup i with
      | none => o
      | some f => setField o f cell)
      (fun j hj1 hj2 => hno j (by omega) (by simp only [List.length_cons]; omega))
    rw [hrec]
    cases hl : m.lookup i with
    | none => rfl
    | some f =>
      have hf : f ≠ FieldName.password := by
        intro he
        exact hno i (le_refl i) (by simp only [List.length_cons]; omega)
          (by rw [hl, he])
      simp only []
      exact setField_password_of_ne o f cell hf

/-- The cell of the unique password-mapped column lands in the password
field verbatim. -/
theorem applyColsAux_password_at (m : List (Nat × FieldName)) :
    ∀ (cells : List (List Char)) (i : Nat) (o : Record) (col : Nat),
      m.lookup col = some FieldName.password →
      (∀ j, m.lookup j = some FieldName.password → j = col) →
      i ≤ col → col < i + cells.length →
      (applyColsAux m cells i o).password = cells.getD (col - i) [] := by
  intro cells
  induction cells with
  | nil =>
    intro i o col _ _ h1 h2
    simp at h2
    omega
  | cons cell rest ih =>
    intro i o col hcol hui h1 h2
    by_cases hic : i = col
    · subst hic
      simp only [applyColsAux]
      rw [hcol]
      have hrest : (applyColsAux m rest (i + 1)
          (setField o FieldName.password cell)).password =
          (setField o FieldName.password cell).password := by
        apply applyColsAux_password_none
        intro j hj1 _ hl
        have := hui j hl
        omega
      rw [hrest]
      have h0 : i - i = 0 := by omega
      rw [h0]
      rfl
    · have hlt2 : i < col := by omega
      simp only [applyColsAux]
      have hrec := ih (i + 1) (match m.lookup i with
        | none => o
        | some f => setField o f cell) col hcol hui (by omega)
        (by simp only [List.length_cons] at h2; omega)
      rw [hrec]
      have hs : col - i = (col - (i + 1)) + 1 := by omega
      rw [hs]
      rfl

/-- buildRecord leaves the password exactly as the column loop wrote it. -/
theorem buildRecord_password_eq (hostFn : List Char → Option (List Char))
    (m : List (Nat × FieldName)) (row : List (List Char)) :
    (buildRecord hostFn m row).password = (applyColsAux m row 0 emptyRecord).password :=
  rfl

/-- Records agreeing outside the password produce the same matching key. -/
theorem mkKey_congr (s : Bool) {a b : Record} (h : agreePub a b) :
    mkKey s a = mkKey s b := by
  rcases h with ⟨_, h2, h3, _, _, h6⟩
  cases s <;> simp [mkKey, h2, h3, h6]

/-- Key sets only depend on the non-password fields. -/
theorem keysOf_congr (s : Bool) {B B1 : List Record}
    (h : List.Forall₂ agreePub B B1) : keysOf B s = keysOf B1 s := by
  induction h with
  | nil => rfl
  | cons hab htl ih =>
    simp only [keysOf, List.map_cons] at ih ⊢
    rw [mkKey_congr s hab, ih]

/-- C9: passwords are opaque: (1) a parsed record's password is the raw
cell of the column detectMapping assigned to password, verbatim, and (2)
computeMissing takes exactly the same per-position decisions (and returns
pointwise agreeing records) on inputs differing only in passwords. -/
theorem c9_password_isolated :
    (∀ (hostFn : List Char → Option (List Char)) (headers : List (List Char))
        (row : List (List Char)) (col : Nat),
      (detectMapping headers).lookup col = some FieldName.password →
      col < row.length →
      (buildRecord hostFn (detectMapping headers) row).password = row.getD col []) ∧
    (∀ (A A1 B B1 : List Record) (s : Bool),
      List.Forall₂ agreePub A A1 → List.Forall₂ agreePub B B1 →
      missingMask A B s = missingMask A1 B1 s ∧
      List.Forall₂ agreePub (computeMissing A B s) (computeMissing A1 B1 s)) := by
  constructor
  · intro hostFn headers row col hcol hlt
    rw [buildRecord_password_eq]
    have hui : ∀ j, (detectMapping headers).lookup j = some FieldName.password →
        j = col := by
      intro j hj
      exact snd_nodup_key_unique _ (detectMapping_sndNodup headers) j col _
        (lookup_mem _ _ _ hj) (lookup_mem _ _ _ hcol)
    have := applyColsAux_password_at (detectMapping headers) row 0 emptyRecord col
      hcol hui (by omega) (by omega)
    simpa using this
  · intro A A1 B B1 s hA hB
    have hK : keysOf B s = keysOf B1 s := keysOf_congr s hB
    constructor
    · induction hA with
      | nil => rfl
      | cons hab htl ih =>
        simp only [missingMask, List.map_cons] at ih ⊢
        rw [hK] at ih
        rw [mkKey_congr s hab, hK, ih]
    · induction hA with
      | nil => exact List.Forall₂.nil
      | cons hab htl ih =>
        rename_i a b l1 l2
        simp only [computeMissing, List.filter_cons] at ih ⊢
        rw [hK] at ih
        rw [mkKey_congr s hab, hK]
        by_cases hp : (!(keysOf B1 s).contains (mkKey s b)) = true
        · rw [if_pos hp, if_pos hp]
          exact List.Forall₂.cons hab ih
        · rw [if_neg hp, if_neg hp]
          exact ih

/-- C9 (witness): the password facts applied at a one-column password file
and at a pair of singleton lists differing only in the stored password. -/
theorem c9_password_isolated_witness :
    (buildRecord (fun _ => none) (detectMapping [String.toList "password"])
        [String.toList "pw"]).password = [String.toList "pw"].getD 0 [] ∧
    (missingMask [Record.mk [] [] [] (String.toList "a") [] [] []] [] false =
        missingMask [Record.mk [] [] [] (String.toList "b") [] [] []] [] false ∧
      List.Forall₂ agreePub
        (computeMissing [Record.mk [] [] [] (String.toList "a") [] [] []] [] false)
        (computeMissing [Record.mk [] [] [] (String.toList "b") [] [] []] [] false)) :=
  ⟨c9_password_isolated.1 (fun _ => none) [String.toList "password"]
      [String.toList "pw"] 0 (by decide) (by decide),
    c9_password_isolated.2 [Record.mk [] [] [] (String.toList "a") [] [] []]
      [Record.mk [] [] [] (String.toList "b") [] [] []] [] [] false
      (List.Forall₂.cons (by unfold agreePub; exact ⟨rfl, rfl, rfl, rfl, rfl, rfl⟩)
        List.Forall₂.nil)
      List.Forall₂.nil⟩

/-- The mapper loop only ever appends entries, and only at indices at or
beyond the current one. -/
theorem detectMappingAux_append :
    ∀ (hs : List (List Char)) (idx : Nat) (used : List FieldName)
      (acc : List (Nat × FieldName)),
      ∃ ext, detectMappingAux hs idx used acc = acc ++ ext ∧ ∀ p ∈ ext, idx ≤ p.1 := by
  intro hs
  induction hs with
  | nil =>
    intro idx used acc
    refine ⟨[], ?_, ?_⟩
    · simp [detectMappingAux]
    · simp
  | cons hh ht ih =>
    intro idx used acc
    cases hf : firstField (normHeader hh) with
    | none =>
      rcases ih (idx + 1) used acc with ⟨ext, he, hb⟩
      refine ⟨ext, ?_, fun p hp => by have := hb p hp; omega⟩
      simp only [detectMappingAux, hf]
      exact he
    | some f =>
      by_cases hu : f ∈ used
      · rcases ih (idx + 1) used acc with ⟨ext, he, hb⟩
        refine ⟨ext, ?_, fun p hp => by have := hb p hp; omega⟩
        simp only [detectMappingAux, hf, if_pos hu]
        exact he
      · rcases ih (idx + 1) (f :: used) (acc ++ [(idx, f)]) with ⟨ext, he, hb⟩
        refine ⟨(idx, f) :: ext, ?_, ?_⟩
        · simp only [detectMappingAux, hf, if_neg hu]
          rw [he, List.append_assoc]
          rfl
        · intro p hp
          rcases List.mem_cons.mp hp with hp1 | hp2
          · rw [hp1]
          · have := hb p hp2; omega

/-- Lookup skips a block whose keys all differ from the probe. -/
theorem lookup_append_skip {β : Type} (l m : List (Nat × β)) (k : Nat)
    (h : ∀ p ∈ l, p.1 ≠ k) : (l ++ m).lookup k = m.lookup k := by
  induction l with
  | nil => rfl
  | cons p t ih =>
    rcases p with ⟨a, b⟩
    have ha : a ≠ k := h (a, b) (List.mem_cons_self _ _)
    have hba : (k == a) = false := by
      simp only [beq_eq_false_iff_ne, ne_eq]
      exact fun he => ha he.symm
    rw [List.cons_append, List.lookup, hba]
    exact ih (fun q hq => h q (List.mem_cons_of_mem _ hq))

/-- Lookup misses entirely when every key differs from the probe. -/
theorem lookup_none_of (l : List (Nat × FieldName)) (k : Nat)
    (h : ∀ p ∈ l, p.1 ≠ k) : l.lookup k = none := by
  have := lookup_append_skip l [] k h
  simpa using this

/-- Filter of the assembled map at a bound below every extension index. -/
theorem filter_append_low (acc ext : List (Nat × FieldName)) (b : Nat)
    (hacc : ∀ p ∈ acc, p.1 < b) (hext : ∀ p ∈ ext, ¬ p.1 < b) :
    (acc ++ ext).filter (fun p => decide (p.1 < b)) = acc := by
  rw [List.filter_append]
  rw [List.filter_eq_self.mpr (fun p hp => decide_eq_true (hacc p hp))]
  rw [List.filter_eq_nil_iff.mpr (fun p hp => by simpa using hext p hp)]
  simp

/-- Per-column behaviour of the mapper loop: the column at offset i is
assigned exactly the first field its normalised header matches, unless an
earlier column already claimed that field, in which case it is unmapped. -/
theorem detectMappingAux_lookup :
    ∀ (hs : List (List Char)) (idx : Nat) (used : List FieldName)
      (acc : List (Nat × FieldName)),
      (∀ p ∈ acc, p.1 < idx) →
      (∀ f, f ∈ used ↔ f ∈ acc.map Prod.snd) →
      ∀ i, i < hs.length →
        (detectMappingAux hs idx used acc).lookup (idx + i) =
          (match firstField (normHeader (hs.getD i [])) with
           | none => none
           | some f =>
             if f ∈ ((detectMappingAux hs idx used acc).filter
                 (fun p => decide (p.1 < idx + i))).map Prod.snd then none
             else some f) := by
  intro hs
  induction hs with
  | nil =>
    intro idx used acc _ _ i hi
    simp at hi
  | cons hh ht ih =>
    intro idx used acc hacc hused i hi
    cases i with
    | zero =>
      rw [Nat.add_zero]
      simp only [List.getD_cons_zero]
      cases hf : firstField (normHeader hh) with
      | none =>
        have hred : detectMappingAux (hh :: ht) idx used acc =
            detectMappingAux ht (idx + 1) used acc := by
          simp only [detectMappingAux, hf]
        rcases detectMappingAux_append ht (idx + 1) used acc with ⟨ext, he, hb⟩
        rw [hred, he,
          lookup_append_skip _ _ _ (fun p hp => by have := hacc p hp; omega),
          lookup_none_of _ _ (fun p hp => by have := hb p hp; omega)]
      | some f =>
        by_cases hu : f ∈ used
        · have hred : detectMappingAux (hh :: ht) idx used acc =
              detectMappingAux ht (idx + 1) used acc := by
            simp only [detectMappingAux, hf, if_pos hu]
          rcases detectMappingAux_append ht (idx + 1) used acc with ⟨ext, he, hb⟩
          have hlk : (detectMappingAux (hh :: ht) idx used acc).lookup idx = none := by
            rw [hred, he,
              lookup_append_skip _ _ _ (fun p hp => by have := hacc p hp; omega),
              lookup_none_of _ _ (fun p hp => by have := hb p hp; omega)]
          have hfl : ((detectMappingAux (hh :: ht) idx used acc).filter
              (fun p => decide (p.1 < idx))).map Prod.snd = acc.map Prod.snd := by
            rw [hred, he,
              filter_append_low acc ext idx hacc (fun p hp => by have := hb p hp; omega)]
          rw [hlk, hfl]
          show none = if f ∈ List.map Prod.snd acc then none else some f
          rw [if_pos ((hused f).mp hu)]
        · have hred : detectMappingAux (hh :: ht) idx used acc =
              detectMappingAux ht (idx + 1) (f :: used) (acc ++ [(idx, f)]) := by
            simp only [detectMappingAux, hf, if_neg hu]
          rcases detectMappingAux_append ht (idx + 1) (f :: used) (acc ++ [(idx, f)])
            with ⟨ext, he, hb⟩
          have hsplit : detectMappingAux (hh :: ht) idx used acc =
              acc ++ ((idx, f) :: ext) := by
            rw [hred, he, List.append_assoc]
            rfl
          have hlk : (detectMappingAux (hh :: ht) idx used acc).lookup idx = some f := by
            rw [hsplit,
              lookup_append_skip _ _ _ (fun p hp => by have := hacc p hp; omega)]
            simp [List.lookup]
          have hfl : ((detectMappingAux (hh :: ht) idx used acc).filter
              (fun p => decide (p.1 < idx))).map Prod.snd = acc.map Prod.snd := by
            rw [hsplit,
              filter_append_low acc ((idx, f) :: ext) idx hacc ?_]
            intro p hp
            rcases List.mem_cons.mp hp with hp1 | hp2
            · rw [hp1]; omega
            · have := hb p hp2; omega
          rw [hlk, hfl]
          show some f = if f ∈ List.map Prod.snd acc then none else some f
          rw [if_neg (fun hmem => hu ((hused f).mpr hmem))]
    | succ j =>
      have harith : idx + (j + 1) = (idx + 1) + j := by omega
      have hj : j < ht.length := by
        simp only [List.length_cons] at hi
        omega
      simp only [List.getD_cons_succ]
      cases hf : firstField (normHeader hh) with
      | none =>
        have hred : detectMappingAux (hh :: ht) idx used acc =
            detectMappingAux ht (idx + 1) used acc := by
          simp only [detectMappingAux, hf]
        have hx := ih (idx + 1) used acc
          (fun p hp => by have := hacc p hp; omega) hused j hj
        rw [hred, harith]
        exact hx
      | some f =>
        by_cases hu : f ∈ used
        · have hred : detectMappingAux (hh :: ht) idx used acc =
              detectMappingAux ht (idx + 1) used acc := by
            simp only [detectMappingAux, hf, if_pos hu]
          have hx := ih (idx + 1) used acc
            (fun p hp => by have := hacc p hp; omega) hused j hj
          rw [hred, harith]
          exact hx
        · have hred : detectMappingAux (hh :: ht) idx used acc =
              detectMappingAux ht (idx + 1) (f :: used) (acc ++ [(idx, f)]) := by
            simp only [detectMappingAux, hf, if_neg hu]
          have hacc2 : ∀ p ∈ acc ++ [(idx, f)], p.1 < idx + 1 := by
            intro p hp
            rcases List.mem_append.mp hp with hp1 | hp2
            · have := hacc p hp1; omega
            · have : p = (idx, f) := by simpa using hp2
              rw [this]; omega
          have hused2 : ∀ g, g ∈ f :: used ↔ g ∈ (acc ++ [(idx, f)]).map Prod.snd := by
            intro g
            rw [List.map_append]
            simp only [List.mem_cons, List.mem_append, List.map_cons, List.map_nil,
              List.mem_singleton]
            rw [hused g]
            constructor
            · rintro (h1 | h1)
              · exact Or.inr (Or.inl h1)
              · exact Or.inl h1
            · rintro (h1 | h1 | h1)
              · exact Or.inr h1
              · exact Or.inl h1
              · exact absurd h1 (List.not_mem_nil g)
          have hx := ih (idx + 1) (f :: used) (acc ++ [(idx, f)]) hacc2 hused2 j hj
          rw [hred, harith]
          exact hx

/-- C1 (amended): each header is scanned through the fields in priority
order and the scan stops at its first synonym match whether or not that
field is free; the column is mapped to that first-matching field exactly
when no earlier column claimed it, and a column whose first-matching field
is taken stays unmapped even if it also matches a later unused field. -/
theorem c1_detectMapping_rule (headers : List (List Char)) (i : Nat)
    (hi : i < headers.length) :
    (detectMapping headers).lookup i =
      (match firstField (normHeader (headers.getD i [])) with
       | none => none
       | some f =>
         if f ∈ ((detectMapping headers).filter
             (fun p => decide (p.1 < i))).map Prod.snd then none
         else some f) := by
  have hx := detectMappingAux_lookup headers 0 [] [] (by simp) (by simp) i hi
  rw [Nat.zero_add] at hx
  exact hx

/-- C1 (counterexample): the second header of name, nameurl matches the
synonym url of the unclaimed url field, yet detectMapping leaves it
unmapped, because its scan stopped at the title synonym name first. -/
theorem c1_counterexample :
    matchProp (normHeader (String.toList "nameurl")) FieldName.url = true ∧
    FieldName.url ∉
      (detectMapping [String.toList "name", String.toList "nameurl"]).map Prod.snd ∧
    (detectMapping [String.toList "name", String.toList "nameurl"]).lookup 1 =
      none := by
  decide

/-- C1 (witness): the amended per-column rule applied to the header list
url, nom, whose second column is assigned title. -/
theorem c1_detectMapping_rule_witness :
    (detectMapping [String.toList "url", String.toList "nom"]).lookup 1 =
      some FieldName.title := by
  have h := c1_detectMapping_rule [String.toList "url", String.toList "nom"] 1
    (by decide)
  rw [h]
  decide

/-- One inert character goes into the field buffer. -/
theorem parseCSVAux_clean_char (c : Char) (hc : cleanChar c) (rest field : List Char)
    (row : List (List Char)) (rows : List (List (List Char))) :
    parseCSVAux (c :: rest) false field row rows =
      parseCSVAux rest false (field ++ [c]) row rows := by
  obtain ⟨h1, h2, h3, h4⟩ := hc
  simp only [parseCSVAux, h1, h2, h3, h4]

/-- A comma outside quotes closes the current field. -/
theorem parseCSVAux_comma_step (rest field : List Char) (row : List (List Char))
    (rows : List (List (List Char))) :
    parseCSVAux (',' :: rest) false field row rows =
      parseCSVAux rest false [] (row ++ [field]) rows := rfl

/-- A CRLF outside quotes closes the current row in one step. -/
theorem parseCSVAux_crlf_step (rest field : List Char) (row : List (List Char))
    (rows : List (List (List Char))) :
    parseCSVAux ('\r' :: '\n' :: rest) false field row rows =
      parseCSVAux rest false [] [] (rows ++ [row ++ [field]]) := rfl

/-- End of input flushes a pending field or row. -/
theorem parseCSVAux_end (field : List Char) (row : List (List Char))
    (rows : List (List (List Char))) (h : ¬(field = [] ∧ row = [])) :
    parseCSVAux [] false field row rows = rows ++ [row ++ [field]] := by
  rw [parseCSVAux, if_neg h]

/-- A clean run of characters lands in the field buffer wholesale. -/
theorem parseCSVAux_clean_run (fc : List Char) (hfc : cleanStr fc) :
    ∀ (rest field : List Char) (row : List (List Char)) (rows : List (List (List Char))),
      parseCSVAux (fc ++ rest) false field row rows =
        parseCSVAux rest false (field ++ fc) row rows := by
  induction fc with
  | nil => intro rest field row rows; simp
  | cons c t ih =>
    intro rest field row rows
    rw [List.cons_append,
      parseCSVAux_clean_char c (hfc c (List.mem_cons_self c t)),
      ih (fun d hd => hfc d (List.mem_cons_of_mem _ hd)) rest (field ++ [c]) row rows,
      List.append_assoc]
    rfl

/-- A clean run that is the whole remaining input. -/
theorem parseCSVAux_clean_whole (fc : List Char) (hfc : cleanStr fc)
    (field : List Char) (row : List (List Char)) (rows : List (List (List Char))) :
    parseCSVAux fc false field row rows =
      parseCSVAux [] false (field ++ fc) row rows := by
  have hx := parseCSVAux_clean_run fc hfc [] field row rows
  rwa [List.append_nil] at hx

/-- Consuming one clean CRLF-terminated line pushes exactly its fields as
one row. -/
theorem parseCSVAux_line :
    ∀ (fs : List (List Char)) (f : List Char), cleanStr f → (∀ g ∈ fs, cleanStr g) →
      ∀ (rest : List Char) (row : List (List Char)) (rows : List (List (List Char))),
        parseCSVAux (joinComma (f :: fs) ++ '\r' :: '\n' :: rest) false [] row rows =
          parseCSVAux rest false [] [] (rows ++ [row ++ f :: fs]) := by
  intro fs
  induction fs with
  | nil =>
    intro f hf _ rest row rows
    have hj : joinComma [f] = f := rfl
    rw [hj, parseCSVAux_clean_run f hf _ [] row rows]
    simp only [List.nil_append]
    rw [parseCSVAux_crlf_step]
  | cons g t ih =>
    intro f hf hfs rest row rows
    have hj : joinComma (f :: g :: t) ++ '\r' :: '\n' :: rest =
        f ++ (',' :: (joinComma (g :: t) ++ '\r' :: '\n' :: rest)) := by
      show (f ++ ',' :: joinComma (g :: t)) ++ '\r' :: '\n' :: rest = _
      rw [List.append_assoc]
      rfl
    rw [hj, parseCSVAux_clean_run f hf _ [] row rows]
    simp only [List.nil_append]
    rw [parseCSVAux_comma_step,
      ih g (hfs g (List.mem_cons_self g t))
        (fun d hd => hfs d (List.mem_cons_of_mem _ hd)) rest (row ++ [f]) rows]
    simp [List.append_assoc]

/-- Consuming a final clean line with at least two fields and no trailing
terminator flushes it as the last row. -/
theorem parseCSVAux_last_line :
    ∀ (fs : List (List Char)) (f : List Char), cleanStr f → (∀ g ∈ fs, cleanStr g) →
      fs ≠ [] →
      ∀ (row : List (List Char)) (rows : List (List (List Char))),
        parseCSVAux (joinComma (f :: fs)) false [] row rows = rows ++ [row ++ f :: fs] := by
  intro fs
  induction fs with
  | nil => intro f _ _ h; exact absurd rfl h
  | cons g t ih =>
    intro f hf hfs _ row rows
    have hj : joinComma (f :: g :: t) = f ++ (',' :: joinComma (g :: t)) := rfl
    rw [hj, parseCSVAux_clean_run f hf _ [] row rows]
    simp only [List.nil_append]
    rw [parseCSVAux_comma_step]
    cases t with
    | nil =>
      have hjg : joinComma [g] = g := rfl
      rw [hjg, parseCSVAux_clean_whole g (hfs g (List.mem_cons_self g [])) [] (row ++ [f]) rows]
      simp only [List.nil_append]
      rw [parseCSVAux_end g (row ++ [f]) rows (by simp)]
      simp [List.append_assoc]
    | cons g2 t2 =>
      rw [ih g (hfs g (List.mem_cons_self g _))
        (fun d hd => hfs d (List.mem_cons_of_mem _ hd)) (by simp) (row ++ [f]) rows]
      simp [List.append_assoc]

/-- Tokenizing a CRLF join of clean multi-field lines recovers exactly the
field lists. -/
theorem parseCSVAux_all_lines :
    ∀ (fss : List (List (List Char))),
      (∀ r ∈ fss, 2 ≤ r.length ∧ ∀ x ∈ r, cleanStr x) → fss ≠ [] →
      ∀ rows, parseCSVAux (joinLines (fss.map joinComma)) false [] [] rows = rows ++ fss := by
  intro fss
  induction fss with
  | nil => intro _ h; exact absurd rfl h
  | cons r t ih =>
    intro hcl _ rows
    obtain ⟨hr2, hrc⟩ := hcl r (List.mem_cons_self r t)
    cases r with
    | nil => simp at hr2
    | cons f fs =>
      have hfsne : fs ≠ [] := by
        intro hnil
        rw [hnil] at hr2
        simp at hr2
      have hcf : cleanStr f := hrc f (List.mem_cons_self f fs)
      have hcfs : ∀ g ∈ fs, cleanStr g := fun g hg => hrc g (List.mem_cons_of_mem _ hg)
      cases t with
      | nil =>
        have hjl : joinLines ([f :: fs].map joinComma) = joinComma (f :: fs) := rfl
        rw [hjl, parseCSVAux_last_line fs f hcf hcfs hfsne [] rows]
        simp
      | cons r2 t2 =>
        have hjl : joinLines (((f :: fs) :: r2 :: t2).map joinComma) =
            joinComma (f :: fs) ++ '\r' :: '\n' ::
              joinLines ((r2 :: t2).map joinComma) := rfl
        rw [hjl, parseCSVAux_line fs f hcf hcfs _ [] rows,
          ih (fun q hq => hcl q (List.mem_cons_of_mem _ hq)) (by simp)
            (rows ++ [[] ++ f :: fs])]
        simp

/-- Clean fields pass through the serializer escape untouched. -/
theorem escapeField_of_clean (s : List Char) (h : cleanStr s) : escapeField s = s := by
  rw [escapeField, if_neg]
  intro hany
  rcases List.any_eq_true.mp hany with ⟨c, hc, hsp⟩
  obtain ⟨h1, h2, h3, _⟩ := h c hc
  simp [isSpecialChar, h1, h2, h3] at hsp

/-- Column mapping detectMapping computes on the header row emitted by
generateCsv: the username column is shadowed by the title synonym name and
stays unmapped. -/
def appleMapping : List (Nat × FieldName) :=
  [(0, FieldName.title), (1, FieldName.url), (3, FieldName.password),
    (4, FieldName.notes), (5, FieldName.otpAuth)]

/-- Tokenizing the serializer output of clean records yields the header
row followed by one six-field row per record. -/
theorem parseCSV_generateCsv (rs : List Record) (h : ∀ r ∈ rs, cleanRec r) :
    parseCSV (generateCsv rs) =
      (["title", "url", "username", "password", "notes", "otpAuth"].map String.toList) ::
        rs.map (fun r => [r.title, r.url, r.username, r.password, r.notes, []]) := by
  have hrow : ∀ r ∈ rs, joinComma (csvRowCells r) =
      joinComma [r.title, r.url, r.username, r.password, r.notes, []] := by
    intro r hr
    obtain ⟨h1, h2, h3, h4, h5⟩ := h r hr
    simp only [csvRowCells, escapeField_of_clean _ h1, escapeField_of_clean _ h2,
      escapeField_of_clean _ h3, escapeField_of_clean _ h4, escapeField_of_clean _ h5]
  have hgen : generateCsv rs =
      joinLines (((["title", "url", "username", "password", "notes", "otpAuth"].map
          String.toList) ::
        rs.map (fun r => [r.title, r.url, r.username, r.password, r.notes, []])).map
          joinComma) := by
    rw [generateCsv]
    rw [show headerChars =
      joinComma (["title", "url", "username", "password", "notes", "otpAuth"].map
        String.toList) from by decide]
    congr 1
    rw [List.map_cons]
    congr 1
    rw [List.map_map]
    exact List.map_congr_left hrow
  rw [parseCSV, hgen, parseCSVAux_all_lines _ ?_ (by simp) []]
  · rfl
  · intro r hr
    rcases List.mem_cons.mp hr with hr1 | hr2
    · subst hr1
      constructor
      · decide
      · decide
    · rcases List.mem_map.mp hr2 with ⟨q, hq, hqe⟩
      obtain ⟨h1, h2, h3, h4, h5⟩ := h q hq
      subst hqe
      constructor
      · simp
      · intro x hx
        simp only [List.mem_cons] at hx
        rcases hx with hx | hx | hx | hx | hx | hx | hx
        · rw [hx]; exact h1
        · rw [hx]; exact h2
        · rw [hx]; exact h3
        · rw [hx]; exact h4
        · rw [hx]; exact h5
        · rw [hx]; intro d hd; simp at hd
        · simp at hx

/-- Row loop of parseFile under the mapping of the serializer's own header
row: titles, urls, passwords and notes survive; the username column is
unmapped, so the parsed username is always empty. -/
theorem rowsToRecords_apple (hostFn : List Char → Option (List Char)) :
    ∀ (rs : List Record),
      (∀ r ∈ rs, normaliseUrl r.url = r.url ∧ r.username = [] ∧
        ¬(r.title = [] ∧ r.url = [] ∧ r.password = [] ∧ r.notes = [])) →
      (rowsToRecords hostFn appleMapping
          (rs.map (fun r => [r.title, r.url, r.username, r.password, r.notes, []]))).map
        projFive = rs.map projFive := by
  intro rs
  induction rs with
  | nil => intro _; rfl
  | cons r t ih =>
    intro hy
    obtain ⟨hurl, huser, hne⟩ := hy r (List.mem_cons_self r t)
    have hrowne : (List.all [r.title, r.url, r.username, r.password, r.notes, []]
        (fun cell => cell.isEmpty)) = false := by
      rw [huser]
      by_contra hx
      rw [Bool.not_eq_false] at hx
      simp only [List.all_cons, List.all_nil, Bool.and_eq_true, List.isEmpty_iff] at hx
      exact hne ⟨hx.1, hx.2.1, hx.2.2.2.1, hx.2.2.2.2.1⟩
    simp only [List.map_cons, rowsToRecords, List.filter_cons]
    rw [hrowne]
    simp only [Bool.not_false, if_true, List.map_cons]
    have hb : buildRecord hostFn appleMapping
        [r.title, r.url, r.username, r.password, r.notes, []] =
        Record.mk r.title (normaliseUrl r.url) [] r.password r.notes []
          (extractDomain hostFn (normaliseUrl r.url)) := rfl
    rw [hb]
    have htl := ih (fun q hq => hy q (List.mem_cons_of_mem _ hq))
    simp only [rowsToRecords, List.map_cons] at htl
    have hhead : projFive (Record.mk r.title (normaliseUrl r.url) [] r.password r.notes []
        (extractDomain hostFn (normaliseUrl r.url))) = projFive r := by
      simp only [projFive, hurl, huser]
    rw [hhead, htl]

/-- C2 (amended): the round trip holds for record lists whose five exported
fields are free of comma, double quote, newline and carriage return, whose
url is already in normaliseUrl normal form, whose username is empty (the
serializer's own username header is shadowed by the title synonym name and
never mapped back), and which do not serialize to an all-empty row. -/
theorem c2_roundtrip (hostFn : List Char → Option (List Char)) (rs : List Record)
    (h : ∀ r ∈ rs, cleanRec r ∧ normaliseUrl r.url = r.url ∧ r.username = [] ∧
      ¬(r.title = [] ∧ r.url = [] ∧ r.password = [] ∧ r.notes = [])) :
    (parseSource hostFn (generateCsv rs)).map projFive = rs.map projFive := by
  rw [parseSource, parseCSV_generateCsv rs (fun r hr => (h r hr).1)]
  simp only [parseRows]
  rw [show (["title", "url", "username", "password", "notes", "otpAuth"].map
      String.toList).map jsTrim =
      ["title", "url", "username", "password", "notes", "otpAuth"].map String.toList
    from by decide]
  rw [show detectMapping (["title", "url", "username", "password", "notes",
      "otpAuth"].map String.toList) = appleMapping from by decide]
  exact rowsToRecords_apple hostFn rs (fun r hr => (h r hr).2)

/-- C2 (counterexample): the round trip fails as claimed, in four
independent ways: a username is lost (its header matches the used title
synonym name first), a url not in normal form gets rewritten, an all-empty
record is dropped, and a carriage return inside a field splits the row. -/
theorem c2_counterexample :
    (parseSource (fun _ => none)
        (generateCsv [Record.mk (String.toList "a") (String.toList "https://b")
          (String.toList "u") (String.toList "p") (String.toList "n") [] []])).map
      projFive ≠
      [Record.mk (String.toList "a") (String.toList "https://b") (String.toList "u")
        (String.toList "p") (String.toList "n") [] []].map projFive ∧
    (parseSource (fun _ => none)
        (generateCsv [Record.mk (String.toList "a") (String.toList "b") []
          (String.toList "p") (String.toList "n") [] []])).map projFive ≠
      [Record.mk (String.toList "a") (String.toList "b") [] (String.toList "p")
        (String.toList "n") [] []].map projFive ∧
    (parseSource (fun _ => none) (generateCsv [emptyRecord])).map projFive ≠
      [emptyRecord].map projFive ∧
    (parseSource (fun _ => none)
        (generateCsv [Record.mk ['a', '\r', 'b'] [] [] [] [] [] []])).map
      projFive ≠
      [Record.mk ['a', '\r', 'b'] [] [] [] [] [] []].map projFive := by
  refine ⟨?_, ?_, ?_, ?_⟩ <;> decide

/-- C2 (witness): the amended round trip applied to a concrete clean
record in normal form. -/
theorem c2_roundtrip_witness :
    (parseSource (fun _ => none)
        (generateCsv [Record.mk (String.toList "a") (String.toList "https://b") []
          (String.toList "p") (String.toList "n") [] []])).map projFive =
      [Record.mk (String.toList "a") (String.toList "https://b") []
        (String.toList "p") (String.toList "n") [] []].map projFive :=
  c2_roundtrip (fun _ => none) _ (by decide)
